import Mathlib

/-!
Verification of the timestamp scan-and-rewrite engine and the minimal-diff
patch engine of the timestamps repository (src/src/App.tsx).

Text is embedded as `List Char` (the source operates on JavaScript strings;
all inputs of interest are plain BMP text, so a character list is a faithful
model of the code-unit sequence).  JavaScript numbers appearing in the code
are nonnegative integers below 2^53 (see the numerical claim), so they are
embedded as `Nat`; the running splice offset may be negative and is embedded
as `Int`.  The host date-formatting library (date-fns-tz `format`) and the
host `Date.getFullYear` are external collaborators and appear as function
parameters of the configuration; a concrete UTC instantiation is provided
for evaluating theorems on concrete inputs.
-/

namespace Timestamps

/-- Decimal digits of a JavaScript nonnegative integer, fuel-driven so that
it reduces in the kernel.  `natToStringAux (n+1) n` produces the decimal
representation of `n`, matching `Number.prototype.toString` on the
nonnegative integers handled by the program. -/
def natToStringAux : Nat → Nat → List Char
  | 0, _ => []
  | fuel + 1, n =>
    if n < 10 then [Char.ofNat (48 + n)]
    else natToStringAux fuel (n / 10) ++ [Char.ofNat (48 + n % 10)]

/-- Decimal representation of a nonnegative JavaScript number, as produced by
`toString` and by template-string interpolation in `convertTimestamp`. -/
def natToString (n : Nat) : List Char := natToStringAux (n + 1) n

/-- Value of `parseInt` on a string of decimal digits (the only strings the
program applies `parseInt` to are regex matches of `\d{10}` or `\d{13}`). -/
def digitsToNat (ds : List Char) : Nat :=
  ds.foldl (fun acc c => acc * 10 + (c.toNat - 48)) 0

/-- JavaScript regex word character: `[A-Za-z0-9_]`, the class underlying the
`\b` anchors of the scan patterns. -/
def isWordChar (c : Char) : Bool := c.isAlphanum || c = '_'

/-- Whether position `i` of `s` holds a word character (out-of-range
positions hold none, matching the behaviour of `\b` at the string edges). -/
def wordCharAt (s : List Char) (i : Nat) : Bool :=
  match s.get? i with
  | some c => isWordChar c
  | none => false

/-- Whether the regex `\b\d{k}\b` matches `s` at position `i`: exactly `k`
decimal digits starting at `i`, with a word boundary on each side.  Since the
matched characters are digits (word characters), the boundary amounts to the
neighbouring position holding a non-word character or lying outside `s`. -/
def matchAt (s : List Char) (k i : Nat) : Bool :=
  decide (i + k ≤ s.length) && ((s.drop i).take k).all Char.isDigit &&
    (decide (i = 0) || !wordCharAt s (i - 1)) && !wordCharAt s (i + k)

/-- One step of the `regexPattern.exec` loop of `addMatches`: starting the
search at position `i`, report the leftmost match position and continue after
it (`lastIndex` advances by the match length `k`).  The fuel argument makes
the definition structurally recursive; `s.length + 1` fuel suffices. -/
def scanAux (s : List Char) (k : Nat) : Nat → Nat → List Nat
  | 0, _ => []
  | fuel + 1, i =>
    if i + k ≤ s.length then
      if matchAt s k i then i :: scanAux s k fuel (i + k)
      else scanAux s k fuel (i + 1)
    else []

/-- All match positions of `\b\d{k}\b` in `s`, in ascending order, as
produced by the `while ((match = regexPattern.exec(text)) !== null)` loop. -/
def scan (s : List Char) (k : Nat) : List Nat := scanAux s k (s.length + 1) 0

/-- Which of the two scan passes produced a candidate: the 13-digit
millisecond pass or the 10-digit second pass.  This determines the processor
closure stored with the match. -/
inductive MatchKind where
  | ms : MatchKind
  | sec : MatchKind
deriving DecidableEq

/-- Entry of the `matches` array: match position, matched text and the
processor pass that found it. -/
structure MatchItem where
  index : Nat
  text : List Char
  kind : MatchKind
deriving DecidableEq

/-- Conversion configuration: the two React state booleans consumed by
`convertTimestamp`, together with the external collaborators — the date
formatter for each of the two patterns (date-fns-tz `format` with the
selected timezone baked in) and the host `Date.prototype.getFullYear`. -/
structure Config where
  replaceTimestamp : Bool
  useJavaFormat : Bool
  fmtNormal : Nat → List Char
  fmtJava : Nat → List Char
  getFullYear : Nat → Int

/-- The guard of `convertTimestamp`: `!isNaN(date.getTime())` — which for a
nonnegative epoch value `ts` holds exactly when `ts ≤ 8.64e15` — together
with the calendar-year window `[1975, 2050]`. -/
def validInstant (cfg : Config) (ts : Nat) : Bool :=
  decide (ts ≤ 8640000000000000) &&
    decide ((1975 : Int) ≤ cfg.getFullYear ts) &&
    decide (cfg.getFullYear ts ≤ 2050)

/-- Embedding of `convertTimestamp`.  On a valid instant it yields the
formatted date alone (`replaceTimestamp`) or the template string
`` `${timestamp} [${formattedDate}]` ``; otherwise `timestamp.toString()`.
Note that `timestamp` here is the numeric argument of the function — for
second-pass candidates that is the value already multiplied by 1000. -/
def convertTimestamp (cfg : Config) (ts : Nat) : List Char :=
  if validInstant cfg ts then
    let formatted := if cfg.useJavaFormat then cfg.fmtJava ts else cfg.fmtNormal ts
    if cfg.replaceTimestamp then formatted
    else natToString ts ++ ' ' :: '[' :: (formatted ++ [']'])
  else natToString ts

/-- The numeric argument handed to `convertTimestamp` by the processor
closure: `parseInt(match)` for the millisecond pass and
`parseInt(match) * 1000` for the second pass. -/
def valueMs (m : MatchItem) : Nat :=
  match m.kind with
  | MatchKind.ms => digitsToNat m.text
  | MatchKind.sec => digitsToNat m.text * 1000

/-- Applying the stored processor closure to the matched text. -/
def applyProcessor (cfg : Config) (m : MatchItem) : List Char :=
  convertTimestamp cfg (valueMs m)

/-- The `matches` array after the two `addMatches` calls: first every
13-digit match, then every 10-digit match, each recorded with its position
and matched substring. -/
def matchesOf (s : List Char) : List MatchItem :=
  (scan s 13).map (fun i => ⟨i, (s.drop i).take 13, MatchKind.ms⟩) ++
    (scan s 10).map (fun i => ⟨i, (s.drop i).take 10, MatchKind.sec⟩)

/-- Stable insertion of a match behind all entries with index not larger
than its own — the insertion step of a stable ascending sort. -/
def insertAfterLE (m : MatchItem) : List MatchItem → List MatchItem
  | [] => [m]
  | x :: xs => if x.index ≤ m.index then x :: insertAfterLE m xs else m :: x :: xs

/-- Embedding of `_.orderBy(matches, ["index"], ["asc"])`: a stable sort by
ascending match index. -/
def orderByIndex (l : List MatchItem) : List MatchItem :=
  l.foldl (fun acc m => insertAfterLE m acc) []

/-- Embedding of the rewrite loop of `convertTimestamps`: walk the sorted
matches, and for every match whose converted text differs from the matched
text splice the conversion into `result` (via `substring`, whose arguments
clamp at the string edges — hence `Int.toNat`), record the highlight range
and update the running offset. -/
def spliceLoop (cfg : Config) (result : List Char) (ranges : List (Int × Int))
    (offset : Int) : List MatchItem → List Char × List (Int × Int)
  | [] => (result, ranges)
  | m :: rest =>
    let converted := applyProcessor cfg m
    if converted = m.text then spliceLoop cfg result ranges offset rest
    else
      spliceLoop cfg
        (result.take (((m.index : Int) + offset).toNat) ++ converted ++
          result.drop (((m.index : Int) + (m.text.length : Int) + offset).toNat))
        (ranges ++ [((m.index : Int) + offset,
          (m.index : Int) + (converted.length : Int) + offset)])
        (offset + (converted.length : Int) - (m.text.length : Int)) rest

/-- Embedding of `convertTimestamps`: empty input short-circuits, otherwise
the sorted matches are spliced into the input text. -/
def convertTimestamps (cfg : Config) (text : List Char) :
    List Char × List (Int × Int) :=
  if text = [] then ([], [])
  else spliceLoop cfg text [] 0 (orderByIndex (matchesOf text))

/-- Diff token operation of the sequence-diff primitive (diff-match-patch):
equal, delete or insert. -/
inductive DiffOp where
  | equal : DiffOp
  | delete : DiffOp
  | insert : DiffOp
deriving DecidableEq

/-- Diff token: an operation with its text payload. -/
structure Diff where
  op : DiffOp
  text : List Char
deriving DecidableEq

/-- Concatenation of the old-side text of a diff token list (equal and
delete payloads). -/
def oldSide : List Diff → List Char
  | [] => []
  | d :: rest => (if d.op = DiffOp.insert then [] else d.text) ++ oldSide rest

/-- Concatenation of the new-side text of a diff token list (equal and
insert payloads). -/
def newSide : List Diff → List Char
  | [] => []
  | d :: rest => (if d.op = DiffOp.delete then [] else d.text) ++ newSide rest

/-- Contract of the external diff primitive: the token list describes a
transformation of `a` into `b`. -/
def diffValid (a b : List Char) (ds : List Diff) : Prop :=
  oldSide ds = a ∧ newSide ds = b

/-- Edit operation emitted by `computeMonacoEdits`, with the monaco
line/column range written in the equivalent flat old-text character offsets
(the source converts offsets to positions through `model.getPositionAt`, a
bijection for the model holding the old text). -/
structure EditOp where
  rangeStart : Nat
  rangeEnd : Nat
  text : List Char
deriving DecidableEq

/-- The token walk of `computeMonacoEdits`, carrying the old-text cursor
`index`: equal advances the cursor, delete emits a deletion of the token's
span and advances, insert emits an insertion at the cursor and stays. -/
def editsAux (index : Nat) : List Diff → List EditOp
  | [] => []
  | d :: rest =>
    match d.op with
    | DiffOp.equal => editsAux (index + d.text.length) rest
    | DiffOp.delete =>
      ⟨index, index + d.text.length, []⟩ :: editsAux (index + d.text.length) rest
    | DiffOp.insert => ⟨index, index, d.text⟩ :: editsAux index rest

/-- Embedding of `computeMonacoEdits`, as a function of the diff token list
returned by the external diff primitive for `(oldText, newText)`. -/
def computeMonacoEdits (ds : List Diff) : List EditOp := editsAux 0 ds

/-- Application of an ordered batch of edit operations to the old text, all
offsets interpreted against the old text (the semantics of
`model.applyEdits` for non-overlapping ascending edits): keep the old text
up to each operation's start, substitute its replacement for its span, and
continue after its end. -/
def applyEditsBatch (a : List Char) (pos : Nat) : List EditOp → List Char
  | [] => a.drop pos
  | e :: rest =>
    (a.drop pos).take (e.rangeStart - pos) ++ e.text ++
      applyEditsBatch a e.rangeEnd rest

/-- Batch application starting at the beginning of the old text. -/
def applyEdits (a : List Char) (es : List EditOp) : List Char :=
  applyEditsBatch a 0 es

/-- Gregorian calendar date (year, month, day) of a day count since
1970-01-01, for nonnegative day counts (the civil-from-days algorithm).
Used to instantiate the external date collaborators concretely for the
UTC timezone. -/
def civilFromDays (z : Nat) : Nat × Nat × Nat :=
  let z' := z + 719468
  let era := z' / 146097
  let doe := z' % 146097
  let yoe := (doe - doe / 1460 + doe / 36524 - doe / 146096) / 365
  let y := yoe + era * 400
  let doy := doe - (365 * yoe + yoe / 4 - yoe / 100)
  let mp := (5 * doy + 2) / 153
  let d := doy - (153 * mp + 2) / 5 + 1
  let m := if mp < 10 then mp + 3 else mp - 9
  (if m ≤ 2 then y + 1 else y, m, d)

/-- Two-digit zero-padded decimal, as produced by the `MM`, `dd`, `HH`,
`mm` and `ss` format tokens. -/
def pad2 (n : Nat) : List Char :=
  if n < 10 then '0' :: natToString n else natToString n

/-- Concrete instantiation of the formatting collaborator for the UTC
timezone and the standard pattern `yyyy-MM-dd HH:mm:ssXXX` (the UTC offset
rendered as `+00:00`), applied to a nonnegative epoch-millisecond value. -/
def fmtUTCNormal (ms : Nat) : List Char :=
  let sec := ms / 1000
  let sod := sec % 86400
  let ymd := civilFromDays (sec / 86400)
  natToString ymd.1 ++ '-' :: pad2 ymd.2.1 ++ '-' :: pad2 ymd.2.2 ++
    ' ' :: pad2 (sod / 3600) ++ ':' :: pad2 (sod % 3600 / 60) ++
    ':' :: pad2 (sod % 60) ++ ('+' :: '0' :: '0' :: ':' :: '0' :: '0' :: [])

/-- Concrete instantiation of `Date.prototype.getFullYear` for a host whose
local timezone is UTC, on nonnegative epoch-millisecond values. -/
def getFullYearUTC (ms : Nat) : Int := ((civilFromDays (ms / 1000 / 86400)).1 : Int)

/-- Concrete configuration used to evaluate theorems on concrete inputs:
UTC timezone, annotate mode (`replaceTimestamp = false`), standard format
(the java-format collaborator is instantiated with the same UTC formatter,
which is irrelevant while `useJavaFormat = false`). -/
def cfgUTC : Config :=
  ⟨false, false, fmtUTCNormal, fmtUTCNormal, getFullYearUTC⟩

/-- Modelled from the spec: the external sequence-diff primitive
(diff-match-patch `diff_main`, whose code is not part of this repository)
short-circuits two identical inputs to a single equal token — or to no
tokens at all when the common text is empty — and `diff_cleanupEfficiency`
leaves a pure-equality diff unchanged. -/
def dmpDiffSelf (a : List Char) : List Diff :=
  if a = [] then [] else [⟨DiffOp.equal, a⟩]

/-- Specification predicate: the positions in a scan result, read from a
lower bound `lb`, are match positions separated by at least the pattern
length `k` (so the matched spans are disjoint and in ascending order). -/
def posChain (s : List Char) (k : Nat) : Nat → List Nat → Prop
  | _, [] => True
  | lb, i :: rest => lb ≤ i ∧ matchAt s k i = true ∧ posChain s k (i + k) rest

/-- Well-formedness of one recorded match with respect to the source text:
a nonempty in-bounds span whose recorded text is the corresponding substring
of the source and consists of decimal digits. -/
def itemWF (s : List Char) (m : MatchItem) : Prop :=
  0 < m.text.length ∧ m.index + m.text.length ≤ s.length ∧
    m.text = (s.drop m.index).take m.text.length ∧ m.text.all Char.isDigit = true

/-- Well-formedness of a list of recorded matches read from a source
position `pos`: each match is well formed, starts no earlier than `pos`,
and the next match starts no earlier than the end of the current one. -/
def wfMatches (s : List Char) : Nat → List MatchItem → Prop
  | _, [] => True
  | pos, m :: rest =>
    pos ≤ m.index ∧ itemWF s m ∧ wfMatches s (m.index + m.text.length) rest

/-- Two recorded matches occupy disjoint spans of the source text. -/
def sepa (m m' : MatchItem) : Prop :=
  m.index + m.text.length ≤ m'.index ∨ m'.index + m'.text.length ≤ m.index

/-- Specification of the text produced by the rewrite loop from source
position `pos` onwards: matches whose conversion equals their text are
passed through; all others have their span replaced by the conversion. -/
def rewriteFrom (cfg : Config) (s : List Char) : Nat → List MatchItem → List Char
  | pos, [] => s.drop pos
  | pos, m :: rest =>
    if applyProcessor cfg m = m.text then rewriteFrom cfg s pos rest
    else
      (s.drop pos).take (m.index - pos) ++ applyProcessor cfg m ++
        rewriteFrom cfg s (m.index + m.text.length) rest

/-- Specification of the highlight ranges produced by the rewrite loop when
entering it with running offset `offset`. -/
def rangesFrom (cfg : Config) : Int → List MatchItem → List (Int × Int)
  | _, [] => []
  | offset, m :: rest =>
    if applyProcessor cfg m = m.text then rangesFrom cfg offset rest
    else
      ((m.index : Int) + offset,
        (m.index : Int) + ((applyProcessor cfg m).length : Int) + offset) ::
        rangesFrom cfg
          (offset + ((applyProcessor cfg m).length : Int) - (m.text.length : Int)) rest

/-- The replacement texts of the matches that are actually spliced (those
whose conversion differs from the matched text), in processing order. -/
def splicedConv (cfg : Config) (ms : List MatchItem) : List (List Char) :=
  ms.filterMap fun m =>
    if applyProcessor cfg m = m.text then none else some (applyProcessor cfg m)

/-- The substring of `t` covered by a recorded highlight range. -/
def extractRange (t : List Char) (r : Int × Int) : List Char :=
  (t.drop r.1.toNat).take (r.2 - r.1).toNat

/-- Specification predicate for a highlight-range list read from a lower
bound: every range starts no earlier than the bound, is nonempty, and ends
no later than the start of the next one. -/
def rngChain : Int → List (Int × Int) → Prop
  | _, [] => True
  | lo, r :: rest => lo ≤ r.1 ∧ r.1 < r.2 ∧ rngChain r.2 rest

/-- Specification predicate for an edit-operation list read from an
old-text cursor lower bound: starts are ascending and each operation's
deleted span ends before the next operation starts. -/
def edChain : Nat → List EditOp → Prop
  | _, [] => True
  | lo, e :: rest => lo ≤ e.rangeStart ∧ e.rangeStart ≤ e.rangeEnd ∧ edChain e.rangeEnd rest

/-- Allowed adjacency of two consecutive diff tokens after the diff
primitive's merge cleanup: never the same operation twice, and never an
insertion immediately followed by a deletion (within an edit block deletions
are emitted before insertions). -/
def canonicalAdj (d d' : Diff) : Prop :=
  d.op ≠ d'.op ∧ ¬(d.op = DiffOp.insert ∧ d'.op = DiffOp.delete)

/-- Every adjacent pair of a diff token list is an allowed adjacency. -/
def adjOK : List Diff → Prop
  | [] => True
  | [_] => True
  | d :: d' :: rest => canonicalAdj d d' ∧ adjOK (d' :: rest)

/-- Shape of the token lists produced by diff-match-patch after its merge
cleanup (run at the end of both `diff_main` and `diff_cleanupEfficiency`):
no empty payloads and only allowed adjacencies. -/
def canonicalDiff (ds : List Diff) : Prop :=
  (∀ d ∈ ds, d.text ≠ []) ∧ adjOK ds

/-- A nonnegative integer is exactly representable as an IEEE-754 binary64
value: it is a mantissa below 2^53 times a power of two.  Every arithmetic
result in the program whose exact value is such an integer below 2^53 is
computed without rounding. -/
def float64Exact (n : Nat) : Prop :=
  ∃ mant ex : Nat, mant < 2 ^ 53 ∧ n = mant * 2 ^ ex

instance (a b : List Char) (ds : List Diff) : Decidable (diffValid a b ds) :=
  inferInstanceAs (Decidable (oldSide ds = a ∧ newSide ds = b))

instance (d d' : Diff) : Decidable (canonicalAdj d d') :=
  inferInstanceAs (Decidable (d.op ≠ d'.op ∧
    ¬(d.op = DiffOp.insert ∧ d'.op = DiffOp.delete)))

instance adjOKDec : (l : List Diff) → Decidable (adjOK l)
  | [] => isTrue trivial
  | [_] => isTrue trivial
  | d :: d' :: rest =>
    have : Decidable (adjOK (d' :: rest)) := adjOKDec (d' :: rest)
    inferInstanceAs (Decidable (canonicalAdj d d' ∧ adjOK (d' :: rest)))

instance (ds : List Diff) : Decidable (canonicalDiff ds) :=
  inferInstanceAs (Decidable ((∀ d ∈ ds, d.text ≠ []) ∧ adjOK ds))

theorem natToStringAux_ne_nil (fuel n : Nat) : natToStringAux (fuel + 1) n ≠ [] := by
  unfold natToStringAux
  split <;> simp

theorem natToString_ne_nil (n : Nat) : natToString n ≠ [] :=
  natToStringAux_ne_nil n n

theorem posChain_mono {s : List Char} {k lb lb' : Nat} {l : List Nat} (h : lb ≤ lb') :
    posChain s k lb' l → posChain s k lb l := by
  cases l with
  | nil => intro; trivial
  | cons i rest =>
    rintro ⟨h1, h2, h3⟩
    exact ⟨Nat.le_trans h h1, h2, h3⟩

theorem scanAux_chain (s : List Char) (k : Nat) :
    ∀ fuel i, posChain s k i (scanAux s k fuel i) := by
  intro fuel
  induction fuel with
  | zero => intro i; exact trivial
  | succ fuel ih =>
    intro i
    unfold scanAux
    split
    · split
      · exact ⟨Nat.le_refl i, by assumption, ih (i + k)⟩
      · exact posChain_mono (Nat.le_succ i) (ih (i + 1))
    · exact trivial

theorem posChain_mem {s : List Char} {k : Nat} :
    ∀ {lb : Nat} {l : List Nat}, posChain s k lb l →
      ∀ x ∈ l, lb ≤ x ∧ matchAt s k x = true := by
  intro lb l
  induction l generalizing lb with
  | nil => intro _ x hx; cases hx
  | cons i rest ih =>
    rintro ⟨h1, h2, h3⟩ x hx
    rcases List.mem_cons.mp hx with rfl | hx'
    · exact ⟨h1, h2⟩
    · have hr := ih h3 x hx'
      exact ⟨Nat.le_trans h1 (Nat.le_trans (Nat.le_add_right i k) hr.1), hr.2⟩

theorem scan_chain (s : List Char) (k : Nat) : posChain s k 0 (scan s k) :=
  scanAux_chain s k (s.length + 1) 0

theorem scan_mem {s : List Char} {k x : Nat} (hx : x ∈ scan s k) :
    matchAt s k x = true :=
  (posChain_mem (scan_chain s k) x hx).2

theorem matchAt_bound {s : List Char} {k i : Nat} (h : matchAt s k i = true) :
    i + k ≤ s.length := by
  simp only [matchAt, Bool.and_eq_true, decide_eq_true_eq] at h
  exact h.1.1.1

theorem matchAt_all_digits {s : List Char} {k i : Nat} (h : matchAt s k i = true) :
    ((s.drop i).take k).all Char.isDigit = true := by
  simp only [matchAt, Bool.and_eq_true] at h
  exact h.1.1.2

theorem matchAt_left {s : List Char} {k i : Nat} (h : matchAt s k i = true) :
    i = 0 ∨ wordCharAt s (i - 1) = false := by
  simp only [matchAt, Bool.and_eq_true, Bool.or_eq_true, decide_eq_true_eq,
    Bool.not_eq_true'] at h
  exact h.1.2

theorem matchAt_right {s : List Char} {k i : Nat} (h : matchAt s k i = true) :
    wordCharAt s (i + k) = false := by
  simp only [matchAt, Bool.and_eq_true, Bool.not_eq_true'] at h
  exact h.2

theorem matchAt_digit {s : List Char} {k i : Nat} (h : matchAt s k i = true)
    {p : Nat} (h1 : i ≤ p) (h2 : p < i + k) :
    ∃ c, s[p]? = some c ∧ c.isDigit = true := by
  have hplen : p < s.length := Nat.lt_of_lt_of_le h2 (matchAt_bound h)
  have hidx : ((s.drop i).take k)[p - i]? = s[p]? := by
    rw [List.getElem?_take, if_pos (by omega), List.getElem?_drop]
    congr 1
    omega
  obtain ⟨c, hc⟩ : ∃ c, s[p]? = some c :=
    ⟨_, List.getElem?_eq_getElem hplen⟩
  refine ⟨c, hc, ?_⟩
  have hmem : c ∈ (s.drop i).take k := List.getElem?_mem (hidx.trans hc)
  exact List.all_eq_true.mp (matchAt_all_digits h) c hmem

theorem wordCharAt_of_digit {s : List Char} {p : Nat} {c : Char}
    (hc : s[p]? = some c) (hd : c.isDigit = true) : wordCharAt s p = true := by
  unfold wordCharAt
  rw [List.get?_eq_getElem?, hc]
  simp [isWordChar, Char.isAlphanum, hd]

theorem matchAt_disjoint {s : List Char} {i j : Nat}
    (h13 : matchAt s 13 i = true) (h10 : matchAt s 10 j = true) :
    i + 13 ≤ j ∨ j + 10 ≤ i := by
  by_contra hcon
  push_neg at hcon
  obtain ⟨hji, hij⟩ := hcon
  rcases Nat.lt_or_ge j i with hji' | hij'
  · obtain ⟨c, hc, hd⟩ := matchAt_digit h10 (p := i - 1) (by omega) (by omega)
    have hw := wordCharAt_of_digit hc hd
    rcases matchAt_left h13 with h0 | hnw
    · omega
    · rw [hnw] at hw; cases hw
  · rcases Nat.lt_or_ge (j + 10) (i + 13) with hlt | hge
    · obtain ⟨c, hc, hd⟩ := matchAt_digit h13 (p := j + 10) (by omega) hlt
      have hw := wordCharAt_of_digit hc hd
      rw [matchAt_right h10] at hw; cases hw
    · obtain ⟨c, hc, hd⟩ := matchAt_digit h13 (p := j - 1) (by omega) (by omega)
      have hw := wordCharAt_of_digit hc hd
      rcases matchAt_left h10 with h0 | hnw
      · omega
      · rw [hnw] at hw; cases hw

theorem scanAux_nil {s : List Char} {k : Nat}
    (h : ∀ j, j + k ≤ s.length → matchAt s k j = false) :
    ∀ fuel i, scanAux s k fuel i = [] := by
  intro fuel
  induction fuel with
  | zero => intro i; rfl
  | succ fuel ih =>
    intro i
    unfold scanAux
    split
    · rw [h i (by assumption)]
      simpa using ih (i + 1)
    · rfl

theorem wfMatches_of_posChain {s : List Char} {k : Nat} (kind : MatchKind) (hk : 0 < k) :
    ∀ {lb : Nat} {l : List Nat}, posChain s k lb l →
      wfMatches s lb (l.map fun i => ⟨i, (s.drop i).take k, kind⟩) := by
  intro lb l
  induction l generalizing lb with
  | nil => intro _; exact trivial
  | cons i rest ih =>
    rintro ⟨h1, h2, h3⟩
    have hlen : ((s.drop i).take k).length = k := by
      have hb := matchAt_bound h2
      simp only [List.length_take, List.length_drop]
      omega
    refine ⟨h1, ⟨?_, ?_, ?_, ?_⟩, ?_⟩
    · simpa [hlen] using hk
    · simpa [hlen] using matchAt_bound h2
    · show (s.drop i).take k = (s.drop i).take ((s.drop i).take k).length
      rw [hlen]
    · exact matchAt_all_digits h2
    · show wfMatches s (i + ((s.drop i).take k).length) _
      rw [hlen]
      exact ih h3

theorem wfMatches_mem {s : List Char} :
    ∀ {pos : Nat} {l : List MatchItem}, wfMatches s pos l →
      ∀ x ∈ l, pos ≤ x.index ∧ itemWF s x := by
  intro pos l
  induction l generalizing pos with
  | nil => intro _ x hx; cases hx
  | cons m rest ih =>
    rintro ⟨h1, h2, h3⟩ x hx
    rcases List.mem_cons.mp hx with rfl | hx'
    · exact ⟨h1, h2⟩
    · have hr := ih h3 x hx'
      exact ⟨Nat.le_trans h1 (Nat.le_trans (Nat.le_add_right _ _) hr.1), hr.2⟩

theorem wfMatches_pairwise {s : List Char} :
    ∀ {pos : Nat} {l : List MatchItem}, wfMatches s pos l → l.Pairwise sepa := by
  intro pos l
  induction l generalizing pos with
  | nil => intro _; exact List.Pairwise.nil
  | cons m rest ih =>
    rintro ⟨_, _, h3⟩
    refine List.pairwise_cons.mpr ⟨?_, ih h3⟩
    intro x hx
    exact Or.inl (wfMatches_mem h3 x hx).1

theorem matchesOf_wf13 (s : List Char) :
    wfMatches s 0 ((scan s 13).map fun i => ⟨i, (s.drop i).take 13, MatchKind.ms⟩) :=
  wfMatches_of_posChain MatchKind.ms (by omega) (scan_chain s 13)

theorem matchesOf_wf10 (s : List Char) :
    wfMatches s 0 ((scan s 10).map fun i => ⟨i, (s.drop i).take 10, MatchKind.sec⟩) :=
  wfMatches_of_posChain MatchKind.sec (by omega) (scan_chain s 10)

theorem matchesOf_itemWF {s : List Char} {m : MatchItem} (hm : m ∈ matchesOf s) :
    itemWF s m := by
  rcases List.mem_append.mp hm with h | h
  · exact (wfMatches_mem (matchesOf_wf13 s) m h).2
  · exact (wfMatches_mem (matchesOf_wf10 s) m h).2

theorem matchesOf_pairwise (s : List Char) : (matchesOf s).Pairwise sepa := by
  unfold matchesOf
  refine List.pairwise_append.mpr ⟨wfMatches_pairwise (matchesOf_wf13 s),
    wfMatches_pairwise (matchesOf_wf10 s), ?_⟩
  intro a ha b hb
  obtain ⟨i, hi, rfl⟩ := List.mem_map.mp ha
  obtain ⟨j, hj, rfl⟩ := List.mem_map.mp hb
  have hlen13 : ((s.drop i).take 13).length = 13 := by
    have hb13 := matchAt_bound (scan_mem hi)
    simp only [List.length_take, List.length_drop]
    omega
  have hlen10 : ((s.drop j).take 10).length = 10 := by
    have hb10 := matchAt_bound (scan_mem hj)
    simp only [List.length_take, List.length_drop]
    omega
  show i + ((s.drop i).take 13).length ≤ j ∨ j + ((s.drop j).take 10).length ≤ i
  rw [hlen13, hlen10]
  exact matchAt_disjoint (scan_mem hi) (scan_mem hj)

theorem sepa_symm : ∀ {x y : MatchItem}, sepa x y → sepa y x := by
  intro x y h
  exact h.symm

theorem insertAfterLE_perm (m : MatchItem) (l : List MatchItem) :
    List.Perm (insertAfterLE m l) (m :: l) := by
  induction l with
  | nil => exact List.Perm.refl _
  | cons x xs ih =>
    unfold insertAfterLE
    split
    · exact (ih.cons x).trans (List.Perm.swap m x xs)
    · exact List.Perm.refl _

theorem orderByIndex_perm (l : List MatchItem) : List.Perm (orderByIndex l) l := by
  suffices h : ∀ (l acc : List MatchItem),
      List.Perm (List.foldl (fun acc m => insertAfterLE m acc) acc l) (l ++ acc) by
    simpa using h l []
  intro l
  induction l with
  | nil => intro acc; simp
  | cons m rest ih =>
    intro acc
    refine ((ih (insertAfterLE m acc)).trans ?_)
    refine (List.Perm.append_left rest (insertAfterLE_perm m acc)).trans ?_
    exact List.perm_middle

theorem insertAfterLE_pairwise {l : List MatchItem} (m : MatchItem)
    (h : l.Pairwise fun a b => a.index ≤ b.index) :
    (insertAfterLE m l).Pairwise fun a b => a.index ≤ b.index := by
  induction l with
  | nil => simp [insertAfterLE]
  | cons x xs ih =>
    obtain ⟨hx, hxs⟩ := List.pairwise_cons.mp h
    by_cases hle : x.index ≤ m.index
    · simp only [insertAfterLE, if_pos hle]
      refine List.pairwise_cons.mpr ⟨?_, ih hxs⟩
      intro y hy
      rcases List.mem_cons.mp ((insertAfterLE_perm m xs).mem_iff.mp hy) with rfl | hy'
      · exact hle
      · exact hx y hy'
    · simp only [insertAfterLE, if_neg hle]
      have hmx : m.index ≤ x.index := Nat.le_of_not_le hle
      refine List.pairwise_cons.mpr ⟨?_, h⟩
      intro y hy
      rcases List.mem_cons.mp hy with rfl | hy'
      · exact hmx
      · exact Nat.le_trans hmx (hx y hy')

theorem orderByIndex_pairwise (l : List MatchItem) :
    (orderByIndex l).Pairwise fun a b => a.index ≤ b.index := by
  suffices h : ∀ (l acc : List MatchItem),
      acc.Pairwise (fun a b => a.index ≤ b.index) →
      (List.foldl (fun acc m => insertAfterLE m acc) acc l).Pairwise
        fun a b => a.index ≤ b.index by
    exact h l [] List.Pairwise.nil
  intro l
  induction l with
  | nil => intro acc h; exact h
  | cons m rest ih => intro acc h; exact ih _ (insertAfterLE_pairwise m h)

theorem wfMatches_of_pairwise {s : List Char} :
    ∀ {l : List MatchItem}, (∀ x ∈ l, itemWF s x) →
      l.Pairwise (fun a b => a.index ≤ b.index) → l.Pairwise sepa →
      wfMatches s 0 l := by
  intro l
  induction l with
  | nil => intros; exact trivial
  | cons m rest ih =>
    intro hWF hsort hsep
    obtain ⟨hs1, hs2⟩ := List.pairwise_cons.mp hsort
    obtain ⟨hp1, hp2⟩ := List.pairwise_cons.mp hsep
    have hrest := ih (fun x hx => hWF x (List.mem_cons_of_mem m hx)) hs2 hp2
    refine ⟨Nat.zero_le _, hWF m (List.mem_cons_self m rest), ?_⟩
    cases rest with
    | nil => exact trivial
    | cons x t =>
      obtain ⟨_, hx2, hx3⟩ := hrest
      have hbound : m.index + m.text.length ≤ x.index := by
        rcases hp1 x (List.mem_cons_self x t) with h | h
        · exact h
        · have hxlen : 0 < x.text.length := (hWF x (by simp)).1
          have hmx : m.index ≤ x.index := hs1 x (by simp)
          omega
      exact ⟨hbound, hx2, hx3⟩

theorem sortedMatches_wf (s : List Char) :
    wfMatches s 0 (orderByIndex (matchesOf s)) := by
  refine wfMatches_of_pairwise ?_ (orderByIndex_pairwise _) ?_
  · intro x hx
    exact matchesOf_itemWF ((orderByIndex_perm _).mem_iff.mp hx)
  · exact (List.Perm.pairwise_iff (fun h => sepa_symm h)
      (orderByIndex_perm (matchesOf s))).mpr (matchesOf_pairwise s)

theorem wfMatches_mono {s : List Char} {p p' : Nat} {l : List MatchItem}
    (h : p ≤ p') (hw : wfMatches s p' l) : wfMatches s p l := by
  cases l with
  | nil => exact trivial
  | cons m rest =>
    obtain ⟨h1, h2, h3⟩ := hw
    exact ⟨Nat.le_trans h h1, h2, h3⟩

theorem spliceLoop_cons_skip (cfg : Config) (result : List Char)
    (ranges : List (Int × Int)) (offset : Int) (m : MatchItem) (rest : List MatchItem)
    (h : applyProcessor cfg m = m.text) :
    spliceLoop cfg result ranges offset (m :: rest) =
      spliceLoop cfg result ranges offset rest := by
  simp [spliceLoop, h]

theorem spliceLoop_cons_splice (cfg : Config) (result : List Char)
    (ranges : List (Int × Int)) (offset : Int) (m : MatchItem) (rest : List MatchItem)
    (h : ¬applyProcessor cfg m = m.text) :
    spliceLoop cfg result ranges offset (m :: rest) =
      spliceLoop cfg
        (result.take (((m.index : Int) + offset).toNat) ++ applyProcessor cfg m ++
          result.drop (((m.index : Int) + (m.text.length : Int) + offset).toNat))
        (ranges ++ [((m.index : Int) + offset,
          (m.index : Int) + ((applyProcessor cfg m).length : Int) + offset)])
        (offset + ((applyProcessor cfg m).length : Int) - (m.text.length : Int))
        rest := by
  simp [spliceLoop, h]

theorem rewriteFrom_cons_skip (cfg : Config) (s : List Char) (pos : Nat)
    (m : MatchItem) (rest : List MatchItem) (h : applyProcessor cfg m = m.text) :
    rewriteFrom cfg s pos (m :: rest) = rewriteFrom cfg s pos rest := by
  simp [rewriteFrom, h]

theorem rewriteFrom_cons_splice (cfg : Config) (s : List Char) (pos : Nat)
    (m : MatchItem) (rest : List MatchItem) (h : ¬applyProcessor cfg m = m.text) :
    rewriteFrom cfg s pos (m :: rest) =
      (s.drop pos).take (m.index - pos) ++ applyProcessor cfg m ++
        rewriteFrom cfg s (m.index + m.text.length) rest := by
  simp [rewriteFrom, h]

theorem rangesFrom_cons_skip (cfg : Config) (offset : Int)
    (m : MatchItem) (rest : List MatchItem) (h : applyProcessor cfg m = m.text) :
    rangesFrom cfg offset (m :: rest) = rangesFrom cfg offset rest := by
  simp [rangesFrom, h]

theorem rangesFrom_cons_splice (cfg : Config) (offset : Int)
    (m : MatchItem) (rest : List MatchItem) (h : ¬applyProcessor cfg m = m.text) :
    rangesFrom cfg offset (m :: rest) =
      ((m.index : Int) + offset,
        (m.index : Int) + ((applyProcessor cfg m).length : Int) + offset) ::
        rangesFrom cfg
          (offset + ((applyProcessor cfg m).length : Int) - (m.text.length : Int)) rest := by
  simp [rangesFrom, h]

theorem spliceLoop_ranges (cfg : Config) :
    ∀ (ms : List MatchItem) (result : List Char) (ranges : List (Int × Int)) (offset : Int),
      (spliceLoop cfg result ranges offset ms).2 = ranges ++ rangesFrom cfg offset ms := by
  intro ms
  induction ms with
  | nil => intro result ranges offset; simp [spliceLoop, rangesFrom]
  | cons m rest ih =>
    intro result ranges offset
    by_cases hc : applyProcessor cfg m = m.text
    · rw [spliceLoop_cons_skip cfg result ranges offset m rest hc,
        rangesFrom_cons_skip cfg offset m rest hc]
      exact ih result ranges offset
    · rw [spliceLoop_cons_splice cfg result ranges offset m rest hc,
        rangesFrom_cons_splice cfg offset m rest hc, ih]
      simp

theorem spliceLoop_text (cfg : Config) (s : List Char) :
    ∀ (ms : List MatchItem) (done : List Char) (pos : Nat)
      (ranges : List (Int × Int)) (offset : Int),
      wfMatches s pos ms → pos ≤ s.length →
      (done.length : Int) = (pos : Int) + offset →
      (spliceLoop cfg (done ++ s.drop pos) ranges offset ms).1 =
        done ++ rewriteFrom cfg s pos ms := by
  intro ms
  induction ms with
  | nil =>
    intro done pos ranges offset _ _ _
    simp [spliceLoop, rewriteFrom]
  | cons m rest ih =>
    intro done pos ranges offset hwf hpos hlen
    obtain ⟨h1, ⟨hl0, hl1, _, _⟩, h3⟩ := hwf
    by_cases hc : applyProcessor cfg m = m.text
    · rw [spliceLoop_cons_skip cfg _ ranges offset m rest hc,
        rewriteFrom_cons_skip cfg s pos m rest hc]
      exact ih done pos ranges offset
        (wfMatches_mono (Nat.le_trans h1 (Nat.le_add_right _ _)) h3) hpos hlen
    · rw [spliceLoop_cons_splice cfg _ ranges offset m rest hc,
        rewriteFrom_cons_splice cfg s pos m rest hc]
      have hA : ((m.index : Int) + offset).toNat = done.length + (m.index - pos) := by
        omega
      have hB : ((m.index : Int) + (m.text.length : Int) + offset).toNat =
          done.length + (m.index + m.text.length - pos) := by
        omega
      have htake : (done ++ s.drop pos).take (((m.index : Int) + offset).toNat) =
          done ++ (s.drop pos).take (m.index - pos) := by
        rw [hA]
        exact List.take_append (m.index - pos)
      have hdrop : (done ++ s.drop pos).drop
          (((m.index : Int) + (m.text.length : Int) + offset).toNat) =
          s.drop (m.index + m.text.length) := by
        rw [hB, List.drop_append (m.index + m.text.length - pos), List.drop_drop]
        congr 1
        omega
      rw [htake, hdrop]
      have hmid : ((s.drop pos).take (m.index - pos)).length = m.index - pos := by
        simp only [List.length_take, List.length_drop]
        omega
      have hlen' : (((done ++ ((s.drop pos).take (m.index - pos) ++
          applyProcessor cfg m)).length : Int)) =
          ((m.index + m.text.length : Nat) : Int) +
            (offset + ((applyProcessor cfg m).length : Int) - (m.text.length : Int)) := by
        simp only [List.length_append, hmid]
        push_cast
        omega
      have ihx := ih (done ++ ((s.drop pos).take (m.index - pos) ++ applyProcessor cfg m))
        (m.index + m.text.length) (ranges ++ [((m.index : Int) + offset,
          (m.index : Int) + ((applyProcessor cfg m).length : Int) + offset)])
        (offset + ((applyProcessor cfg m).length : Int) - (m.text.length : Int))
        h3 hl1 hlen'
      simp only [List.append_assoc] at ihx ⊢
      exact ihx

theorem convertTimestamps_eq (cfg : Config) (s : List Char) :
    convertTimestamps cfg s =
      (rewriteFrom cfg s 0 (orderByIndex (matchesOf s)),
        rangesFrom cfg 0 (orderByIndex (matchesOf s))) := by
  by_cases hs : s = []
  · subst hs
    rfl
  · unfold convertTimestamps
    rw [if_neg hs]
    have h1 := spliceLoop_text cfg s (orderByIndex (matchesOf s)) [] 0 [] 0
      (sortedMatches_wf s) (Nat.zero_le _) (by simp)
    have h2 := spliceLoop_ranges cfg (orderByIndex (matchesOf s)) s [] 0
    simp only [List.nil_append, List.drop_zero] at h1
    simp only [List.nil_append] at h2
    exact Prod.ext h1 h2

theorem editsAux_start_ge :
    ∀ (ds : List Diff) (pos : Nat) (e : EditOp), e ∈ editsAux pos ds →
      pos ≤ e.rangeStart := by
  intro ds
  induction ds with
  | nil => intro pos e he; cases he
  | cons d rest ih =>
    intro pos e he
    cases hd : d.op
    · simp only [editsAux, hd] at he
      exact Nat.le_trans (Nat.le_add_right _ _) (ih _ e he)
    · simp only [editsAux, hd] at he
      rcases List.mem_cons.mp he with rfl | he'
      · exact Nat.le_refl _
      · exact Nat.le_trans (Nat.le_add_right _ _) (ih _ e he')
    · simp only [editsAux, hd] at he
      rcases List.mem_cons.mp he with rfl | he'
      · exact Nat.le_refl _
      · exact ih _ e he'

theorem editsAux_within :
    ∀ (ds : List Diff) (pos : Nat) (e : EditOp), e ∈ editsAux pos ds →
      e.rangeStart ≤ e.rangeEnd ∧ e.rangeEnd ≤ pos + (oldSide ds).length := by
  intro ds
  induction ds with
  | nil => intro pos e he; cases he
  | cons d rest ih =>
    intro pos e he
    cases hd : d.op
    · simp only [editsAux, hd] at he
      have hold : (oldSide (d :: rest)).length = d.text.length + (oldSide rest).length := by
        simp [oldSide, hd]
      have hr := ih _ e he
      rw [hold]
      exact ⟨hr.1, by omega⟩
    · simp only [editsAux, hd] at he
      have hold : (oldSide (d :: rest)).length = d.text.length + (oldSide rest).length := by
        simp [oldSide, hd]
      rw [hold]
      rcases List.mem_cons.mp he with rfl | he'
      · exact ⟨Nat.le_add_right pos d.text.length,
          Nat.add_le_add_left (Nat.le_add_right _ _) pos⟩
      · have hr := ih _ e he'
        exact ⟨hr.1, by omega⟩
    · simp only [editsAux, hd] at he
      have hold : (oldSide (d :: rest)).length = (oldSide rest).length := by
        simp [oldSide, hd]
      rw [hold]
      rcases List.mem_cons.mp he with rfl | he'
      · exact ⟨Nat.le_refl pos, Nat.le_add_right pos _⟩
      · have hr := ih _ e he'
        exact ⟨hr.1, by omega⟩

theorem edChain_mono {lo lo' : Nat} {l : List EditOp} (h : lo ≤ lo') :
    edChain lo' l → edChain lo l := by
  cases l with
  | nil => intro; exact trivial
  | cons e rest =>
    rintro ⟨h1, h2, h3⟩
    exact ⟨Nat.le_trans h h1, h2, h3⟩

theorem editsAux_edChain : ∀ (ds : List Diff) (pos : Nat), edChain pos (editsAux pos ds) := by
  intro ds
  induction ds with
  | nil => intro pos; exact trivial
  | cons d rest ih =>
    intro pos
    cases hd : d.op
    · simp only [editsAux, hd]
      exact edChain_mono (Nat.le_add_right _ _) (ih (pos + d.text.length))
    · simp only [editsAux, hd]
      exact ⟨Nat.le_refl _, Nat.le_add_right _ _, ih (pos + d.text.length)⟩
    · simp only [editsAux, hd]
      exact ⟨Nat.le_refl _, Nat.le_refl _, ih pos⟩

theorem edChain_mem_start {l : List EditOp} :
    ∀ {lo : Nat}, edChain lo l → ∀ e ∈ l, lo ≤ e.rangeStart := by
  induction l with
  | nil => intro _ _ e he; cases he
  | cons x rest ih =>
    rintro lo ⟨h1, h2, h3⟩ e he
    rcases List.mem_cons.mp he with rfl | he'
    · exact h1
    · exact Nat.le_trans (Nat.le_trans h1 h2) (ih h3 e he')

theorem edChain_pairwise {l : List EditOp} :
    ∀ {lo : Nat}, edChain lo l →
      l.Pairwise fun e e' => e.rangeEnd ≤ e'.rangeStart := by
  induction l with
  | nil => intro _ _; exact List.Pairwise.nil
  | cons x rest ih =>
    rintro lo ⟨_, _, h3⟩
    exact List.pairwise_cons.mpr ⟨edChain_mem_start h3, ih h3⟩

theorem applyEditsBatch_shift (a : List Char) (pos pos' : Nat) (es : List EditOp)
    (hpp : pos ≤ pos') (hes : ∀ e ∈ es, pos' ≤ e.rangeStart) :
    applyEditsBatch a pos es =
      (a.drop pos).take (pos' - pos) ++ applyEditsBatch a pos' es := by
  cases es with
  | nil =>
    show a.drop pos = (a.drop pos).take (pos' - pos) ++ a.drop pos'
    have hdd : a.drop pos' = (a.drop pos).drop (pos' - pos) := by
      rw [List.drop_drop]
      congr 1
      omega
    rw [hdd, List.take_append_drop]
  | cons e rest =>
    have hse : pos' ≤ e.rangeStart := hes e (List.mem_cons_self e rest)
    show (a.drop pos).take (e.rangeStart - pos) ++ e.text ++ applyEditsBatch a e.rangeEnd rest =
      (a.drop pos).take (pos' - pos) ++
        ((a.drop pos').take (e.rangeStart - pos') ++ e.text ++ applyEditsBatch a e.rangeEnd rest)
    have hsplit : (a.drop pos).take (e.rangeStart - pos) =
        (a.drop pos).take (pos' - pos) ++ (a.drop pos').take (e.rangeStart - pos') := by
      have hq : e.rangeStart - pos = (pos' - pos) + (e.rangeStart - pos') := by omega
      rw [hq, List.take_add]
      congr 2
      rw [List.drop_drop]
      congr 1
      omega
    rw [hsplit]
    simp [List.append_assoc]

theorem editsAux_applyBatch (a : List Char) :
    ∀ (ds : List Diff) (pos : Nat), oldSide ds = a.drop pos →
      applyEditsBatch a pos (editsAux pos ds) = newSide ds := by
  intro ds
  induction ds with
  | nil =>
    intro pos h
    show a.drop pos = newSide []
    rw [← h]
    rfl
  | cons d rest ih =>
    intro pos h
    cases hd : d.op
    · -- equal token: skip over it in the old text
      have hcons : d.text ++ oldSide rest = a.drop pos := by
        simpa [oldSide, hd] using h
      have hrest : oldSide rest = a.drop (pos + d.text.length) := by
        have h2 : (d.text ++ oldSide rest).drop d.text.length =
            (a.drop pos).drop d.text.length := by rw [hcons]
        rw [List.drop_left] at h2
        rw [h2, List.drop_drop]
      simp only [editsAux, hd]
      rw [applyEditsBatch_shift a pos (pos + d.text.length) _ (Nat.le_add_right _ _)
        (fun e he => editsAux_start_ge rest _ e he)]
      rw [Nat.add_sub_cancel_left, ← hcons, List.take_left, ih _ hrest]
      simp [newSide, hd]
    · -- delete token: its edit removes the span, nothing reaches the output
      have hcons : d.text ++ oldSide rest = a.drop pos := by
        simpa [oldSide, hd] using h
      have hrest : oldSide rest = a.drop (pos + d.text.length) := by
        have h2 : (d.text ++ oldSide rest).drop d.text.length =
            (a.drop pos).drop d.text.length := by rw [hcons]
        rw [List.drop_left] at h2
        rw [h2, List.drop_drop]
      simp only [editsAux, hd, applyEditsBatch, Nat.sub_self, List.take_zero,
        List.nil_append]
      rw [ih _ hrest]
      simp [newSide, hd]
    · -- insert token: its edit contributes its payload, old cursor stays
      have hrest : oldSide rest = a.drop pos := by
        simpa [oldSide, hd] using h
      simp only [editsAux, hd, applyEditsBatch, Nat.sub_self, List.take_zero,
        List.nil_append]
      rw [ih _ hrest]
      simp [newSide, hd]

theorem adjOK_tail {d : Diff} {rest : List Diff} (h : adjOK (d :: rest)) :
    adjOK rest := by
  cases rest with
  | nil => exact trivial
  | cons d' rest' => exact h.2

theorem editsAux_pairwise_lt :
    ∀ (ds : List Diff) (pos : Nat), (∀ d ∈ ds, d.text ≠ []) → adjOK ds →
      (editsAux pos ds).Pairwise fun e e' => e.rangeStart < e'.rangeStart := by
  intro ds
  induction ds with
  | nil => intro pos _ _; exact List.Pairwise.nil
  | cons d rest ih =>
    intro pos hne hch
    have hne' : ∀ d' ∈ rest, d'.text ≠ [] :=
      fun d' h => hne d' (List.mem_cons_of_mem _ h)
    have hch' : adjOK rest := adjOK_tail hch
    cases hd : d.op
    · simp only [editsAux, hd]
      exact ih (pos + d.text.length) hne' hch'
    · simp only [editsAux, hd]
      refine List.pairwise_cons.mpr ⟨?_, ih (pos + d.text.length) hne' hch'⟩
      intro e he
      have hge := editsAux_start_ge rest (pos + d.text.length) e he
      have hpos : 0 < d.text.length := List.length_pos.mpr (hne d (by simp))
      show pos < e.rangeStart
      omega
    · simp only [editsAux, hd]
      refine List.pairwise_cons.mpr ⟨?_, ih pos hne' hch'⟩
      intro e he
      show pos < e.rangeStart
      cases rest with
      | nil => simp [editsAux] at he
      | cons d' rest' =>
        have hrel : canonicalAdj d d' := hch.1
        have hop : d'.op = DiffOp.equal := by
          rcases hrel with ⟨hneq, hnid⟩
          cases hop' : d'.op
          · rfl
          · exact absurd ⟨hd, hop'⟩ hnid
          · rw [hd, hop'] at hneq
            exact absurd rfl hneq
        simp only [editsAux, hop] at he
        have hge := editsAux_start_ge rest' (pos + d'.text.length) e he
        have hpos : 0 < d'.text.length := List.length_pos.mpr (hne d' (by simp))
        omega

theorem rewriteFrom_all_skip (cfg : Config) (s : List Char) :
    ∀ (ms : List MatchItem) (pos : Nat),
      (∀ m ∈ ms, applyProcessor cfg m = m.text) →
      rewriteFrom cfg s pos ms = s.drop pos := by
  intro ms
  induction ms with
  | nil => intro pos _; rfl
  | cons m rest ih =>
    intro pos h
    rw [rewriteFrom_cons_skip cfg s pos m rest (h m (List.mem_cons_self m rest))]
    exact ih pos fun x hx => h x (List.mem_cons_of_mem m hx)

theorem rangesFrom_all_skip (cfg : Config) :
    ∀ (ms : List MatchItem) (offset : Int),
      (∀ m ∈ ms, applyProcessor cfg m = m.text) →
      rangesFrom cfg offset ms = [] := by
  intro ms
  induction ms with
  | nil => intro offset _; rfl
  | cons m rest ih =>
    intro offset h
    rw [rangesFrom_cons_skip cfg offset m rest (h m (List.mem_cons_self m rest))]
    exact ih offset fun x hx => h x (List.mem_cons_of_mem m hx)

theorem rngChain_mono {lo lo' : Int} {l : List (Int × Int)} (h : lo ≤ lo') :
    rngChain lo' l → rngChain lo l := by
  cases l with
  | nil => intro; exact trivial
  | cons r rest =>
    rintro ⟨h1, h2, h3⟩
    exact ⟨le_trans h h1, h2, h3⟩

theorem convertTimestamp_ne_nil {cfg : Config}
    (hf : ∀ n, cfg.fmtNormal n ≠ [] ∧ cfg.fmtJava n ≠ []) (ts : Nat) :
    convertTimestamp cfg ts ≠ [] := by
  unfold convertTimestamp
  split
  · split
    · split
      · exact (hf ts).2
      · simp
    · split
      · exact (hf ts).1
      · simp
  · exact natToString_ne_nil ts

theorem rangesFrom_chain {cfg : Config} {s : List Char}
    (hf : ∀ n, cfg.fmtNormal n ≠ [] ∧ cfg.fmtJava n ≠ []) :
    ∀ (ms : List MatchItem) (pos : Nat) (offset : Int),
      wfMatches s pos ms →
      rngChain ((pos : Int) + offset) (rangesFrom cfg offset ms) := by
  intro ms
  induction ms with
  | nil => intro pos offset _; exact trivial
  | cons m rest ih =>
    intro pos offset hwf
    obtain ⟨h1, _, h3⟩ := hwf
    by_cases hc : applyProcessor cfg m = m.text
    · rw [rangesFrom_cons_skip cfg offset m rest hc]
      refine rngChain_mono ?_ (ih (m.index + m.text.length) offset h3)
      push_cast
      omega
    · rw [rangesFrom_cons_splice cfg offset m rest hc]
      have hconv : 0 < ((applyProcessor cfg m).length : Int) := by
        have := convertTimestamp_ne_nil hf (valueMs m)
        have hl : 0 < (applyProcessor cfg m).length :=
          List.length_pos.mpr this
        exact_mod_cast hl
      refine ⟨by push_cast; omega, by omega, ?_⟩
      have := ih (m.index + m.text.length)
        (offset + ((applyProcessor cfg m).length : Int) - (m.text.length : Int)) h3
      refine rngChain_mono ?_ this
      push_cast
      omega

theorem rngChain_mem_start : ∀ {lo : Int} {l : List (Int × Int)},
    rngChain lo l → ∀ r ∈ l, lo ≤ r.1 := by
  intro lo l
  induction l generalizing lo with
  | nil => intro _ r hr; cases hr
  | cons x rest ih =>
    rintro ⟨h1, h2, h3⟩ r hr
    rcases List.mem_cons.mp hr with rfl | hr'
    · exact h1
    · exact le_trans (le_trans h1 (le_of_lt h2)) (ih h3 r hr')

theorem rngChain_pairwise : ∀ {lo : Int} {l : List (Int × Int)},
    rngChain lo l →
      l.Pairwise (fun r r' => r.1 < r'.1) ∧ l.Pairwise (fun r r' => r.2 ≤ r'.1) := by
  intro lo l
  induction l generalizing lo with
  | nil => intro _; exact ⟨List.Pairwise.nil, List.Pairwise.nil⟩
  | cons x rest ih =>
    rintro ⟨h1, h2, h3⟩
    obtain ⟨ih1, ih2⟩ := ih h3
    constructor
    · refine List.pairwise_cons.mpr ⟨?_, ih1⟩
      intro r hr
      exact lt_of_lt_of_le h2 (rngChain_mem_start h3 r hr)
    · refine List.pairwise_cons.mpr ⟨?_, ih2⟩
      intro r hr
      exact rngChain_mem_start h3 r hr

theorem splicedConv_cons_skip (cfg : Config) (m : MatchItem) (rest : List MatchItem)
    (h : applyProcessor cfg m = m.text) :
    splicedConv cfg (m :: rest) = splicedConv cfg rest := by
  simp [splicedConv, List.filterMap_cons, h]

theorem splicedConv_cons_splice (cfg : Config) (m : MatchItem) (rest : List MatchItem)
    (h : ¬applyProcessor cfg m = m.text) :
    splicedConv cfg (m :: rest) = applyProcessor cfg m :: splicedConv cfg rest := by
  simp [splicedConv, List.filterMap_cons, h]

theorem rangesFrom_extract (cfg : Config) (s : List Char) :
    ∀ (ms : List MatchItem) (done : List Char) (pos : Nat) (offset : Int),
      wfMatches s pos ms → pos ≤ s.length →
      (done.length : Int) = (pos : Int) + offset →
      List.Forall₂ (fun (r : Int × Int) (c : List Char) =>
          r.2 - r.1 = (c.length : Int) ∧
          extractRange (done ++ rewriteFrom cfg s pos ms) r = c)
        (rangesFrom cfg offset ms) (splicedConv cfg ms) := by
  intro ms
  induction ms with
  | nil =>
    intro done pos offset _ _ _
    exact List.Forall₂.nil
  | cons m rest ih =>
    intro done pos offset hwf hpos hlen
    obtain ⟨h1, ⟨hl0, hl1, _, _⟩, h3⟩ := hwf
    by_cases hc : applyProcessor cfg m = m.text
    · rw [rangesFrom_cons_skip cfg offset m rest hc,
        splicedConv_cons_skip cfg m rest hc, rewriteFrom_cons_skip cfg s pos m rest hc]
      exact ih done pos offset
        (wfMatches_mono (Nat.le_trans h1 (Nat.le_add_right _ _)) h3) hpos hlen
    · rw [rangesFrom_cons_splice cfg offset m rest hc,
        splicedConv_cons_splice cfg m rest hc, rewriteFrom_cons_splice cfg s pos m rest hc]
      have hmid : ((s.drop pos).take (m.index - pos)).length = m.index - pos := by
        simp only [List.length_take, List.length_drop]
        omega
      refine List.Forall₂.cons ⟨by omega, ?_⟩ ?_
      · -- the final text restricted to the recorded range is the conversion
        have h1a : ((m.index : Int) + offset).toNat =
            (done ++ (s.drop pos).take (m.index - pos)).length := by
          simp only [List.length_append, hmid]
          omega
        have h1b : ((m.index : Int) + ((applyProcessor cfg m).length : Int) + offset -
            ((m.index : Int) + offset)).toNat = (applyProcessor cfg m).length := by
          omega
        have hT : done ++ ((s.drop pos).take (m.index - pos) ++ applyProcessor cfg m ++
            rewriteFrom cfg s (m.index + m.text.length) rest) =
            (done ++ (s.drop pos).take (m.index - pos)) ++
              (applyProcessor cfg m ++ rewriteFrom cfg s (m.index + m.text.length) rest) := by
          simp only [List.append_assoc]
        unfold extractRange
        dsimp only
        rw [h1a, h1b, hT, List.drop_left, List.take_left]
      · -- the remaining ranges, against the same final text
        have hlen' : (((done ++ ((s.drop pos).take (m.index - pos) ++
            applyProcessor cfg m)).length : Int)) =
            ((m.index + m.text.length : Nat) : Int) +
              (offset + ((applyProcessor cfg m).length : Int) - (m.text.length : Int)) := by
          simp only [List.length_append, hmid]
          push_cast
          omega
        have ihx := ih (done ++ ((s.drop pos).take (m.index - pos) ++ applyProcessor cfg m))
          (m.index + m.text.length)
          (offset + ((applyProcessor cfg m).length : Int) - (m.text.length : Int))
          h3 hl1 hlen'
        simpa only [List.append_assoc] using ihx

theorem digitsToNat_foldl_lt :
    ∀ (ds : List Char) (acc : Nat), (∀ c ∈ ds, c.isDigit = true) →
      List.foldl (fun acc c => acc * 10 + (c.toNat - 48)) acc ds <
        (acc + 1) * 10 ^ ds.length := by
  intro ds
  induction ds with
  | nil =>
    intro acc _
    simp
  | cons c rest ih =>
    intro acc hd
    have h9 : c.toNat ≤ 57 := by
      have hdig := hd c (List.mem_cons_self c rest)
      simp only [Char.isDigit, Bool.and_eq_true, decide_eq_true_eq] at hdig
      exact hdig.2
    have hrest : ∀ x ∈ rest, x.isDigit = true :=
      fun x hx => hd x (List.mem_cons_of_mem c hx)
    calc List.foldl (fun acc c => acc * 10 + (c.toNat - 48)) acc (c :: rest)
        = List.foldl (fun acc c => acc * 10 + (c.toNat - 48))
            (acc * 10 + (c.toNat - 48)) rest := rfl
      _ < (acc * 10 + (c.toNat - 48) + 1) * 10 ^ rest.length := ih _ hrest
      _ ≤ ((acc + 1) * 10) * 10 ^ rest.length :=
          Nat.mul_le_mul_right _ (by omega)
      _ = (acc + 1) * 10 ^ (c :: rest).length := by
          simp only [List.length_cons]
          ring

theorem digitsToNat_lt {ds : List Char} (h : ∀ c ∈ ds, c.isDigit = true) :
    digitsToNat ds < 10 ^ ds.length := by
  have := digitsToNat_foldl_lt ds 0 h
  simpa [digitsToNat] using this

theorem convertTimestamp_invalid {cfg : Config} {ts : Nat}
    (h : validInstant cfg ts = false) : convertTimestamp cfg ts = natToString ts := by
  simp [convertTimestamp, h]

theorem matchesOf_kind_length {s : List Char} {m : MatchItem} (hm : m ∈ matchesOf s) :
    (m.kind = MatchKind.ms ∧ m.text.length = 13) ∨
      (m.kind = MatchKind.sec ∧ m.text.length = 10) := by
  rcases List.mem_append.mp hm with h | h
  · obtain ⟨i, hi, rfl⟩ := List.mem_map.mp h
    left
    refine ⟨rfl, ?_⟩
    have hb := matchAt_bound (scan_mem hi)
    simp only [List.length_take, List.length_drop]
    omega
  · obtain ⟨i, hi, rfl⟩ := List.mem_map.mp h
    right
    refine ⟨rfl, ?_⟩
    have hb := matchAt_bound (scan_mem hi)
    simp only [List.length_take, List.length_drop]
    omega

theorem fmtUTCNormal_ne_nil (n : Nat) : fmtUTCNormal n ≠ [] :=
  fun h => absurd (List.append_eq_nil.mp h).2 (List.cons_ne_nil _ _)

/-- C1 (amended): for every candidate of the scan whose instant passes the
validity policy, with `replaceTimestamp = false`, the replacement text is the
decimal representation of the candidate's epoch-millisecond numeric value —
for a 10-digit seconds candidate the value already multiplied by 1000, not
the original ten digits — followed by a space and the formatted date in
square brackets; this replacement always differs from the matched digit
string, so it is spliced. -/
theorem C1_valid_candidate_replacement (cfg : Config) (s : List Char) (m : MatchItem)
    (hm : m ∈ orderByIndex (matchesOf s)) (hrep : cfg.replaceTimestamp = false)
    (hval : validInstant cfg (valueMs m) = true) :
    applyProcessor cfg m = natToString (valueMs m) ++ ' ' :: '[' ::
      ((if cfg.useJavaFormat then cfg.fmtJava (valueMs m)
        else cfg.fmtNormal (valueMs m)) ++ [']']) ∧
    applyProcessor cfg m ≠ m.text := by
  have hWF := matchesOf_itemWF ((orderByIndex_perm _).mem_iff.mp hm)
  constructor
  · simp [applyProcessor, convertTimestamp, hval, hrep]
  · intro heq
    have hsp : (' ' : Char) ∈ m.text := by
      rw [← heq]
      simp [applyProcessor, convertTimestamp, hval, hrep]
    have hd := List.all_eq_true.mp hWF.2.2.2 _ hsp
    exact absurd hd (by decide)

/-- C1 witness: the 13-digit candidate `1700000000000` under the concrete
UTC configuration. -/
theorem C1_witness :
    (⟨0, "1700000000000".toList, MatchKind.ms⟩ : MatchItem) ∈
      orderByIndex (matchesOf ("1700000000000".toList)) ∧
    (applyProcessor cfgUTC ⟨0, "1700000000000".toList, MatchKind.ms⟩ =
      natToString (valueMs ⟨0, "1700000000000".toList, MatchKind.ms⟩) ++ ' ' :: '[' ::
        ((if cfgUTC.useJavaFormat then
            cfgUTC.fmtJava (valueMs ⟨0, "1700000000000".toList, MatchKind.ms⟩)
          else cfgUTC.fmtNormal (valueMs ⟨0, "1700000000000".toList, MatchKind.ms⟩)) ++
          [']']) ∧
      applyProcessor cfgUTC ⟨0, "1700000000000".toList, MatchKind.ms⟩ ≠
        (⟨0, "1700000000000".toList, MatchKind.ms⟩ : MatchItem).text) :=
  ⟨by decide, C1_valid_candidate_replacement cfgUTC ("1700000000000".toList)
    ⟨0, "1700000000000".toList, MatchKind.ms⟩ (by decide) rfl (by decide)⟩

/-- C1 counterexample: on input `1700000000` (a valid 10-digit seconds
candidate, year 2023) with `replaceTimestamp = false` under the concrete UTC
configuration, the output text begins with the millisecond-scaled digits
`1700000000000`, not the candidate's original digit string `1700000000` as
the claim states. -/
theorem C1_counterexample :
    (convertTimestamps cfgUTC ("1700000000".toList)).1 =
      "1700000000000 [2023-11-14 22:13:20+00:00]".toList ∧
    (convertTimestamps cfgUTC ("1700000000".toList)).1 ≠
      "1700000000 [2023-11-14 22:13:20+00:00]".toList := by
  constructor
  · decide
  · decide

/-- C2 (amended): a candidate is left unconverted exactly when its converted
text equals the matched digits, which for a failing candidate requires it to
be a 13-digit candidate whose digit string has no leading zeros
(`natToString (parseInt text) = text`); when every candidate of the input is
such, the output text equals the input and no highlight range is emitted.
Failing 10-digit candidates, and failing candidates with leading zeros, are
instead replaced by the decimal of their (scaled) parsed value and do emit a
range. -/
theorem C2_invalid_passthrough (cfg : Config) (s : List Char)
    (h : ∀ m ∈ orderByIndex (matchesOf s), m.kind = MatchKind.ms ∧
      natToString (digitsToNat m.text) = m.text ∧
      validInstant cfg (valueMs m) = false) :
    convertTimestamps cfg s = (s, []) := by
  have hskip : ∀ m ∈ orderByIndex (matchesOf s), applyProcessor cfg m = m.text := by
    intro m hm
    obtain ⟨hk, hn, hv⟩ := h m hm
    unfold applyProcessor
    rw [convertTimestamp_invalid hv, show valueMs m = digitsToNat m.text from by
      simp [valueMs, hk]]
    exact hn
  rw [convertTimestamps_eq, rewriteFrom_all_skip cfg s _ 0 hskip,
    rangesFrom_all_skip cfg _ 0 hskip]
  simp

/-- C2 witness: the failing 13-digit candidate `9999999999999` (year 2286,
outside the policy window) passes through unchanged with no range. -/
theorem C2_witness :
    convertTimestamps cfgUTC ("end 9999999999999".toList) =
      ("end 9999999999999".toList, []) :=
  C2_invalid_passthrough cfgUTC ("end 9999999999999".toList) (by decide)

/-- C2 counterexample: the failing 10-digit candidate `5000000000` (year
2128, outside the policy window) is NOT passed through: its digits are
replaced by the millisecond-scaled value `5000000000000` and a highlight
range is emitted, contradicting the claim. -/
theorem C2_counterexample :
    (convertTimestamps cfgUTC ("5000000000".toList)).1 ≠ "5000000000".toList ∧
    (convertTimestamps cfgUTC ("5000000000".toList)).2 ≠ [] ∧
    convertTimestamps cfgUTC ("5000000000".toList) =
      ("5000000000000".toList, [(0, 13)]) := by
  refine ⟨by decide, by decide, by decide⟩

/-- C3: for every pair of strings and every diff token list that is a valid
diff of the pair (the contract of the external diff primitive), applying the
edit operations emitted by the patch engine as one batch — all offsets
interpreted against the old text — to the old text yields exactly the new
text. -/
theorem C3_patch_roundtrip (a b : List Char) (ds : List Diff)
    (hd : diffValid a b ds) :
    applyEdits a (computeMonacoEdits ds) = b := by
  obtain ⟨h1, h2⟩ := hd
  unfold applyEdits computeMonacoEdits
  rw [editsAux_applyBatch a ds 0 (by simpa using h1)]
  exact h2

/-- C3 witness: transforming `abc` into `axc` along a concrete diff. -/
theorem C3_witness :
    diffValid ("abc".toList) ("axc".toList)
      [⟨DiffOp.equal, ['a']⟩, ⟨DiffOp.delete, ['b']⟩,
        ⟨DiffOp.insert, ['x']⟩, ⟨DiffOp.equal, ['c']⟩] ∧
    applyEdits ("abc".toList) (computeMonacoEdits
      [⟨DiffOp.equal, ['a']⟩, ⟨DiffOp.delete, ['b']⟩,
        ⟨DiffOp.insert, ['x']⟩, ⟨DiffOp.equal, ['c']⟩]) = "axc".toList :=
  ⟨by decide, C3_patch_roundtrip ("abc".toList) ("axc".toList)
    [⟨DiffOp.equal, ['a']⟩, ⟨DiffOp.delete, ['b']⟩,
      ⟨DiffOp.insert, ['x']⟩, ⟨DiffOp.equal, ['c']⟩] (by decide)⟩

/-- C4: every highlight range emitted by the scanner covers, in the final
output text, exactly the replacement text of its candidate: the ranges list
corresponds one-to-one (in order) to the spliced replacements, each range's
width equals its replacement's length, and the output text restricted to the
range equals that replacement. -/
theorem C4_ranges_cover_replacements (cfg : Config) (s : List Char) :
    List.Forall₂ (fun (r : Int × Int) (c : List Char) =>
        r.2 - r.1 = (c.length : Int) ∧
        extractRange (convertTimestamps cfg s).1 r = c)
      (convertTimestamps cfg s).2
      (splicedConv cfg (orderByIndex (matchesOf s))) := by
  have h := rangesFrom_extract cfg s (orderByIndex (matchesOf s)) [] 0 0
    (sortedMatches_wf s) (Nat.zero_le _) (by simp)
  rw [convertTimestamps_eq]
  simpa using h

/-- C5: for every input and configuration whose formatting collaborator
never returns an empty string, the emitted ranges are strictly ascending by
start and pairwise non-overlapping (each range ends no later than the next
one starts). -/
theorem C5_ranges_sorted_disjoint (cfg : Config) (s : List Char)
    (hf : ∀ n, cfg.fmtNormal n ≠ [] ∧ cfg.fmtJava n ≠ []) :
    ((convertTimestamps cfg s).2.Pairwise fun r r' => r.1 < r'.1) ∧
    ((convertTimestamps cfg s).2.Pairwise fun r r' => r.2 ≤ r'.1) := by
  rw [convertTimestamps_eq]
  exact rngChain_pairwise (rangesFrom_chain hf _ 0 0 (sortedMatches_wf s))

/-- C5 witness: two converted candidates in one input under the concrete UTC
configuration. -/
theorem C5_witness :
    ((convertTimestamps cfgUTC ("7 1600000000 1700000000".toList)).2.Pairwise
      fun r r' => r.1 < r'.1) ∧
    ((convertTimestamps cfgUTC ("7 1600000000 1700000000".toList)).2.Pairwise
      fun r r' => r.2 ≤ r'.1) :=
  C5_ranges_sorted_disjoint cfgUTC ("7 1600000000 1700000000".toList)
    (fun n => ⟨fmtUTCNormal_ne_nil n, fmtUTCNormal_ne_nil n⟩)

/-- C6: for a valid diff in the canonical shape produced by the diff
primitive's merge cleanup, the emitted operations (which appear in diff
token order) have strictly ascending range starts — so in particular ties
can only be of the benign Delete-before-Insert form the claim allows —
every operation's range lies within the old text, and no two operations'
deleted ranges overlap. -/
theorem C6_edits_ascending_nonoverlapping (a b : List Char) (ds : List Diff)
    (hv : diffValid a b ds) (hc : canonicalDiff ds) :
    ((computeMonacoEdits ds).Pairwise fun e e' => e.rangeStart < e'.rangeStart) ∧
    (∀ e ∈ computeMonacoEdits ds,
      e.rangeStart ≤ e.rangeEnd ∧ e.rangeEnd ≤ a.length) ∧
    ((computeMonacoEdits ds).Pairwise fun e e' => e.rangeEnd ≤ e'.rangeStart) := by
  obtain ⟨hne, hch⟩ := hc
  refine ⟨editsAux_pairwise_lt ds 0 hne hch, ?_,
    edChain_pairwise (editsAux_edChain ds 0)⟩
  intro e he
  have hw := editsAux_within ds 0 e he
  rw [hv.1] at hw
  exact ⟨hw.1, by omega⟩

/-- C6 witness: a concrete canonical diff of `abcd` into `abxyd`. -/
theorem C6_witness :
    ((computeMonacoEdits [⟨DiffOp.equal, "ab".toList⟩, ⟨DiffOp.delete, ['c']⟩,
        ⟨DiffOp.insert, "xy".toList⟩, ⟨DiffOp.equal, ['d']⟩]).Pairwise
      fun e e' => e.rangeStart < e'.rangeStart) ∧
    (∀ e ∈ computeMonacoEdits [⟨DiffOp.equal, "ab".toList⟩, ⟨DiffOp.delete, ['c']⟩,
        ⟨DiffOp.insert, "xy".toList⟩, ⟨DiffOp.equal, ['d']⟩],
      e.rangeStart ≤ e.rangeEnd ∧ e.rangeEnd ≤ ("abcd".toList).length) ∧
    ((computeMonacoEdits [⟨DiffOp.equal, "ab".toList⟩, ⟨DiffOp.delete, ['c']⟩,
        ⟨DiffOp.insert, "xy".toList⟩, ⟨DiffOp.equal, ['d']⟩]).Pairwise
      fun e e' => e.rangeEnd ≤ e'.rangeStart) :=
  C6_edits_ascending_nonoverlapping ("abcd".toList) ("abxyd".toList)
    [⟨DiffOp.equal, "ab".toList⟩, ⟨DiffOp.delete, ['c']⟩,
      ⟨DiffOp.insert, "xy".toList⟩, ⟨DiffOp.equal, ['d']⟩]
    (by decide) (by decide)

/-- C7: if no position of the input matches either scan pattern — no run of
exactly 13 or exactly 10 digits bounded by word boundaries — the scanner
returns the input text unchanged and an empty ranges list.  This covers the
empty string and digit runs of length 11, 12 or more than 13. -/
theorem C7_no_candidates_identity (cfg : Config) (s : List Char)
    (h : ∀ i, i < s.length → matchAt s 13 i = false ∧ matchAt s 10 i = false) :
    convertTimestamps cfg s = (s, []) := by
  have h13 : scan s 13 = [] := scanAux_nil (fun j hj => (h j (by omega)).1) _ 0
  have h10 : scan s 10 = [] := scanAux_nil (fun j hj => (h j (by omega)).2) _ 0
  rw [convertTimestamps_eq,
    show matchesOf s = [] from by simp [matchesOf, h13, h10]]
  simp [orderByIndex, rewriteFrom, rangesFrom]

/-- C7 witness: an 11-digit run matches neither pattern and passes through. -/
theorem C7_witness :
    convertTimestamps cfgUTC ("99999999999".toList) = ("99999999999".toList, []) :=
  C7_no_candidates_identity cfgUTC ("99999999999".toList) (by decide)

/-- C8: the diff primitive short-circuits a pair of equal texts to a
pure-equality token list (modelled by `dmpDiffSelf`), and the patch engine
emits no edit operations for it: `Patch(a, a) = []`, never a
delete-everything-and-reinsert pair.  The second conjunct records that the
modelled diff is indeed a valid diff of the pair `(a, a)`. -/
theorem C8_patch_self_empty (a : List Char) :
    computeMonacoEdits (dmpDiffSelf a) = [] ∧ diffValid a a (dmpDiffSelf a) := by
  by_cases ha : a = []
  · subst ha
    exact ⟨rfl, rfl, rfl⟩
  · have hds : dmpDiffSelf a = [⟨DiffOp.equal, a⟩] := by simp [dmpDiffSelf, ha]
    rw [hds]
    refine ⟨?_, ?_, ?_⟩
    · simp [computeMonacoEdits, editsAux]
    · simp [oldSide]
    · simp [newSide]

/-- C9: a candidate of the 13-digit scan never overlaps a candidate of the
10-digit scan: the word-boundary anchors force the matched spans to be
disjoint, so a 13-digit run never also yields a contained 10-digit
candidate. -/
theorem C9_scan_disjoint (s : List Char) (i j : Nat)
    (hi : i ∈ scan s 13) (hj : j ∈ scan s 10) :
    i + 13 ≤ j ∨ j + 10 ≤ i :=
  matchAt_disjoint (scan_mem hi) (scan_mem hj)

/-- C9 witness: an input containing one 10-digit and one 13-digit run. -/
theorem C9_witness :
    11 ∈ scan ("1234567890 1234567890123".toList) 13 ∧
    0 ∈ scan ("1234567890 1234567890123".toList) 10 ∧
    (11 + 13 ≤ 0 ∨ 0 + 10 ≤ 11) :=
  ⟨by decide, by decide,
    C9_scan_disjoint ("1234567890 1234567890123".toList) 11 0 (by decide) (by decide)⟩

/-- C10: every scanned candidate's epoch-millisecond value — the 13-digit
parse, or the 10-digit parse multiplied by 1000 — is the exact integer
denoted by its construction: it is bounded by 9999999999 * 1000 =
9999999999000 (seconds case) resp. 9999999999999, both below 2^53, and any
such integer is exactly representable as an IEEE-754 binary64 value, so no
rounding occurs in `parseInt` or the multiplication. -/
theorem C10_values_exact (s : List Char) (m : MatchItem)
    (hm : m ∈ orderByIndex (matchesOf s)) :
    valueMs m < 2 ^ 53 ∧
    (m.kind = MatchKind.sec → m.text.length = 10 ∧
      valueMs m = digitsToNat m.text * 1000 ∧ digitsToNat m.text ≤ 9999999999) ∧
    (m.kind = MatchKind.ms → m.text.length = 13 ∧ valueMs m = digitsToNat m.text) ∧
    float64Exact (valueMs m) := by
  have hmem := (orderByIndex_perm (matchesOf s)).mem_iff.mp hm
  have hWF := matchesOf_itemWF hmem
  have hdig : ∀ c ∈ m.text, c.isDigit = true := List.all_eq_true.mp hWF.2.2.2
  have hlt := digitsToNat_lt hdig
  rcases matchesOf_kind_length hmem with ⟨hk, hl⟩ | ⟨hk, hl⟩
  · rw [hl] at hlt
    have hv : valueMs m = digitsToNat m.text := by simp [valueMs, hk]
    have hbound : valueMs m < 2 ^ 53 := by
      rw [hv]
      calc digitsToNat m.text < 10 ^ 13 := hlt
        _ ≤ 2 ^ 53 := by norm_num
    refine ⟨hbound, ?_, fun _ => ⟨hl, hv⟩, valueMs m, 0, hbound, by ring⟩
    intro hsec
    rw [hk] at hsec
    cases hsec
  · rw [hl] at hlt
    have hv : valueMs m = digitsToNat m.text * 1000 := by simp [valueMs, hk]
    have h10 : (10 : Nat) ^ 10 = 10000000000 := by norm_num
    have hbound : valueMs m < 2 ^ 53 := by
      rw [hv]
      have : digitsToNat m.text * 1000 < 10 ^ 13 := by
        rw [h10] at hlt
        omega
      calc digitsToNat m.text * 1000 < 10 ^ 13 := this
        _ ≤ 2 ^ 53 := by norm_num
    refine ⟨hbound, fun _ => ⟨hl, hv, by omega⟩, ?_, valueMs m, 0, hbound, by ring⟩
    intro hms
    rw [hk] at hms
    cases hms

/-- C10 witness: the 10-digit candidate `1234567890`. -/
theorem C10_witness :
    valueMs ⟨0, "1234567890".toList, MatchKind.sec⟩ < 2 ^ 53 ∧
    ((⟨0, "1234567890".toList, MatchKind.sec⟩ : MatchItem).kind = MatchKind.sec →
      (⟨0, "1234567890".toList, MatchKind.sec⟩ : MatchItem).text.length = 10 ∧
      valueMs ⟨0, "1234567890".toList, MatchKind.sec⟩ =
        digitsToNat ("1234567890".toList) * 1000 ∧
      digitsToNat ("1234567890".toList) ≤ 9999999999) ∧
    ((⟨0, "1234567890".toList, MatchKind.sec⟩ : MatchItem).kind = MatchKind.ms →
      (⟨0, "1234567890".toList, MatchKind.sec⟩ : MatchItem).text.length = 13 ∧
      valueMs ⟨0, "1234567890".toList, MatchKind.sec⟩ =
        digitsToNat ("1234567890".toList)) ∧
    float64Exact (valueMs ⟨0, "1234567890".toList, MatchKind.sec⟩) :=
  C10_values_exact ("1234567890".toList) ⟨0, "1234567890".toList, MatchKind.sec⟩
    (by decide)

end Timestamps
